import Mathlib

/-!
Shallow embedding of the PIVX storage layer (`txdb.cpp`): the coin database
(`CCoinsViewDB`), its atomic batch-write / crash-marker protocol, the coins
cursor, the legacy-format upgrade, the block-tree database
(`CBlockTreeDB`) and the zerocoin accumulator-checksum cache
(`AccumulatorCache`).

Machine integers (`uint256`, `uint32_t`, heights) are modelled as `Nat`
(the 256-bit hash space is used only through equality and the null test,
so no modular arithmetic is observable); monetary amounts as `Int`.
The underlying LevelDB wrapper (`CDBWrapper`) is modelled as a typed record
store: each record family of `txdb.cpp` is a component of the state, batch
operations are applied sequentially, and `WriteBatch` itself always
succeeds (storage I/O failure is outside the embedding; the `Option`
results below model only the C++ `assert`s, which abort the process).
-/

set_option autoImplicit false

/-- `COutPoint`: a transaction id (`uint256`, modelled as `Nat`) together
with an output index. -/
structure COutPoint where
  hash : Nat
  n : Nat
  deriving DecidableEq, Repr

/-- Modelled from the spec: `CScript` (script.h is not under src/) is a byte
string; `IsUnspendable` holds for a script starting with `OP_RETURN`
(byte 0x6a = 106) or longer than the maximum script size 10000. -/
def scriptIsUnspendable (s : List Nat) : Bool :=
  (s.head? = some 106 : Bool) || (10000 < s.length : Bool)

/-- Modelled from the spec: `CTxOut` (primitives/transaction.h is not under
src/) is an amount plus an output script; a null output is marked by the
sentinel amount -1. -/
structure CTxOut where
  nValue : Int
  scriptPubKey : List Nat
  deriving DecidableEq, Repr

/-- `CTxOut::IsNull`: the amount is the sentinel -1. -/
def CTxOut.IsNull (t : CTxOut) : Bool := t.nValue = -1

/-- Modelled from the spec: `Coin` (coins.h is not under src/) is one
unspent transaction output together with its inclusion height and the
coinbase / coinstake flags; a spent coin is represented by a null output. -/
structure Coin where
  out : CTxOut
  nHeight : Nat
  fCoinBase : Bool
  fCoinStake : Bool
  deriving DecidableEq, Repr

/-- `Coin::IsSpent`: the stored output is null. -/
def Coin.IsSpent (c : Coin) : Bool := c.out.IsNull

/-- Modelled from the spec: `CCoinsCacheEntry` (coins.h is not under src/)
carries the coin and the cache flag bits. -/
structure CCoinsCacheEntry where
  coin : Coin
  flags : Nat
  deriving DecidableEq, Repr

/-- `CCoinsCacheEntry::DIRTY`: bit 0 of the flags word. -/
def CCoinsCacheEntry.DIRTY : Nat := 1

/-- The `CCoinsMap` delta handed to `BatchWrite`, in iteration order.
A `std::unordered_map` has pairwise distinct keys; theorems that need this
take a `Nodup` hypothesis on the key list. -/
abbrev CCoinsMap : Type := List (COutPoint × CCoinsCacheEntry)

/-- Legacy pre-per-txout record (`CCoins` in `txdb.cpp`): coinbase and
coinstake flags, the (sparse) output array, and the inclusion height. -/
structure CCoins where
  fCoinBase : Bool
  fCoinStake : Bool
  vout : List CTxOut
  nHeight : Nat
  deriving DecidableEq, Repr

/-- One sapling portion of a batch write: the arguments handed to
`BatchWriteSapling`. Modelled from the spec: `BatchWriteSapling` is not
under src/ and writes only the sapling record families, disjoint from the
coin, best-block and head-blocks families; its effect is therefore kept
opaque, as the sequence of applied sapling deltas. -/
structure SaplingDelta where
  hashAnchor : Nat
  anchors : List (Nat × Nat)
  nullifiers : List (Nat × Nat)
  deriving DecidableEq, Repr

/-- State of the chainstate database behind `CCoinsViewDB`: the `DB_COIN`
('C') family as an association list in key order, the singleton
`DB_BEST_BLOCK` ('B') and `DB_HEAD_BLOCKS` ('H') records, the legacy
`DB_COINS` ('c') family in key order, and the opaque sapling families. -/
structure CCoinsViewDB where
  coins : List (COutPoint × Coin)
  bestBlock : Option Nat
  headBlocks : Option (List Nat)
  legacy : List (Nat × CCoins)
  sapling : List SaplingDelta
  deriving DecidableEq, Repr

/-- Point read in an association list (the LevelDB `Read` of one record). -/
def lookupCoin : List (COutPoint × Coin) → COutPoint → Option Coin
  | [], _ => none
  | (k, v) :: rest, o => if k = o then some v else lookupCoin rest o

/-- Record write: replaces any record at the same key. -/
def setCoin (l : List (COutPoint × Coin)) (o : COutPoint) (c : Coin) :
    List (COutPoint × Coin) :=
  (o, c) :: l.filter fun p => p.1 ≠ o

/-- Record erase. -/
def eraseCoinRec (l : List (COutPoint × Coin)) (o : COutPoint) :
    List (COutPoint × Coin) :=
  l.filter fun p => p.1 ≠ o

/-- One operation of a `CDBBatch`, restricted to the record families of the
chainstate database. -/
inductive DBOp
  | writeCoin (o : COutPoint) (c : Coin)
  | eraseCoin (o : COutPoint)
  | writeBestBlock (h : Nat)
  | eraseBestBlock
  | writeHeadBlocks (hs : List Nat)
  | eraseHeadBlocks
  | writeSapling (d : SaplingDelta)
  | eraseLegacy (txid : Nat)
  deriving DecidableEq, Repr

/-- Sequential application of one batch operation. -/
def applyOp (db : CCoinsViewDB) : DBOp → CCoinsViewDB
  | .writeCoin o c => { db with coins := setCoin db.coins o c }
  | .eraseCoin o => { db with coins := eraseCoinRec db.coins o }
  | .writeBestBlock h => { db with bestBlock := some h }
  | .eraseBestBlock => { db with bestBlock := none }
  | .writeHeadBlocks hs => { db with headBlocks := some hs }
  | .eraseHeadBlocks => { db with headBlocks := none }
  | .writeSapling d => { db with sapling := db.sapling ++ [d] }
  | .eraseLegacy t => { db with legacy := db.legacy.filter fun p => p.1 ≠ t }

/-- Application of a batch, operation by operation. Chunked flushing in
`BatchWrite` splits one logical sequence into several `WriteBatch` calls;
the resulting state is the same sequential application. -/
def applyOps (db : CCoinsViewDB) (ops : List DBOp) : CCoinsViewDB :=
  ops.foldl applyOp db

/-- `CCoinsViewDB::GetCoin`: point read of a `DB_COIN` record. -/
def CCoinsViewDB.GetCoin (db : CCoinsViewDB) (outpoint : COutPoint) : Option Coin :=
  lookupCoin db.coins outpoint

/-- `CCoinsViewDB::HaveCoin`: existence of a `DB_COIN` record. -/
def CCoinsViewDB.HaveCoin (db : CCoinsViewDB) (outpoint : COutPoint) : Bool :=
  (lookupCoin db.coins outpoint).isSome

/-- `CCoinsViewDB::GetBestBlock`: the stored hash, or `UINT256_ZERO` when
the `DB_BEST_BLOCK` record is absent. -/
def CCoinsViewDB.GetBestBlock (db : CCoinsViewDB) : Nat :=
  match db.bestBlock with
  | none => 0
  | some h => h

/-- `CCoinsViewDB::GetHeadBlocks`: the stored vector, or the empty vector
when the `DB_HEAD_BLOCKS` record is absent. -/
def CCoinsViewDB.GetHeadBlocks (db : CCoinsViewDB) : List Nat :=
  match db.headBlocks with
  | none => []
  | some hs => hs

/-- The `old_tip` computation at the head of `BatchWrite`: the best block
if non-null, otherwise recovered from a two-entry head-blocks marker whose
first entry must equal `hashBlock` (the C++ `assert` aborts otherwise,
modelled as `none`). -/
def computeOldTip (db : CCoinsViewDB) (hashBlock : Nat) : Option Nat :=
  let old_tip := db.GetBestBlock
  if old_tip = 0 then
    match db.GetHeadBlocks with
    | [h0, h1] => if h0 = hashBlock then some h1 else none
    | _ => some old_tip
  else
    some old_tip

/-- The coin-writing loop of `BatchWrite`: each dirty entry contributes an
erase (spent) or a write (unspent); clean entries contribute nothing. -/
def coinBatchOps : CCoinsMap → List DBOp
  | [] => []
  | (o, e) :: rest =>
    (if e.flags &&& CCoinsCacheEntry.DIRTY ≠ 0 then
      [if e.coin.IsSpent then DBOp.eraseCoin o else DBOp.writeCoin o e.coin]
    else []) ++ coinBatchOps rest

/-- The residual delta map after the loop of `BatchWrite`: each iteration
erases the entry just consumed (`mapCoins.erase(itOld)`). -/
def drainedCoins : CCoinsMap → CCoinsMap
  | [] => []
  | _ :: rest => drainedCoins rest

/-- The full ordered operation sequence of one `BatchWrite` call: the
first batch opens with erasing the best block and writing the head-blocks
marker; then the coin loop; then the sapling write; the final batch closes
with erasing the marker and writing the best block. -/
def batchWriteOps (mapCoins : CCoinsMap) (hashBlock hashSaplingAnchor : Nat)
    (mapSaplingAnchors mapSaplingNullifiers : List (Nat × Nat))
    (old_tip : Nat) : List DBOp :=
  [DBOp.eraseBestBlock, DBOp.writeHeadBlocks [hashBlock, old_tip]]
    ++ coinBatchOps mapCoins
    ++ [DBOp.writeSapling ⟨hashSaplingAnchor, mapSaplingAnchors, mapSaplingNullifiers⟩]
    ++ [DBOp.eraseHeadBlocks, DBOp.writeBestBlock hashBlock]

/-- `CCoinsViewDB::BatchWrite`. `none` models an aborting `assert`
(`hashBlock` null, or a two-entry head-blocks marker whose first entry is
not `hashBlock`); otherwise the batch operations are applied in order. -/
def CCoinsViewDB.BatchWrite (db : CCoinsViewDB) (mapCoins : CCoinsMap)
    (hashBlock hashSaplingAnchor : Nat)
    (mapSaplingAnchors mapSaplingNullifiers : List (Nat × Nat)) :
    Option CCoinsViewDB :=
  if hashBlock = 0 then none
  else
    match computeOldTip db hashBlock with
    | none => none
    | some old_tip =>
      some (applyOps db (batchWriteOps mapCoins hashBlock hashSaplingAnchor
        mapSaplingAnchors mapSaplingNullifiers old_tip))

/-- One record of the chainstate keyspace at or after the seek target
`DB_COIN` ('C' = 67): coin records (tag 67), the head-blocks record
(tag 'H' = 72) and legacy records (tag 'c' = 99). The best-block record
(tag 'B' = 66) sorts strictly before the seek target and never appears;
the sapling families are kept opaque (not part of the modelled keyspace,
per the spec's data model). -/
inductive ChainstateRecord
  | coinRec (o : COutPoint) (c : Coin)
  | headBlocksRec (hs : List Nat)
  | legacyRec (txid : Nat) (cc : CCoins)
  deriving DecidableEq, Repr

/-- The one-byte record-type tag of a keyspace record. -/
def ChainstateRecord.tag : ChainstateRecord → Nat
  | .coinRec _ _ => 67
  | .headBlocksRec _ => 72
  | .legacyRec _ _ => 99

/-- The underlying iterator position after `Seek(DB_COIN)`: all records
whose key is byte-lexicographically at or after the tag byte 'C', in key
order — the coin family first, then the head-blocks record, then the
legacy family. -/
def seekDBCoin (db : CCoinsViewDB) : List ChainstateRecord :=
  (db.coins.map fun p => ChainstateRecord.coinRec p.1 p.2)
    ++ (match db.headBlocks with
        | some hs => [ChainstateRecord.headBlocksRec hs]
        | none => [])
    ++ (db.legacy.map fun p => ChainstateRecord.legacyRec p.1 p.2)

/-- `CCoinsViewDBCursor`: the underlying iterator (current position at the
head of the list) and the cached key `keyTmp` (tag byte, outpoint). -/
structure CCoinsViewDBCursor where
  pcursor : List ChainstateRecord
  keyTmp : Nat × COutPoint
  deriving DecidableEq, Repr

/-- `CCoinsViewDB::Cursor`: seek to `DB_COIN` and cache the key of the
first record — its tag byte always, its outpoint payload when it is a coin
record; when the iterator is not valid the cached tag is 0 so that
`Valid()` and `GetKey()` return false. -/
def CCoinsViewDB.Cursor (db : CCoinsViewDB) : CCoinsViewDBCursor :=
  match seekDBCoin db with
  | [] => { pcursor := [], keyTmp := (0, ⟨0, 0⟩) }
  | r :: rest =>
    { pcursor := r :: rest
      keyTmp := (r.tag, match r with
        | ChainstateRecord.coinRec o _ => o
        | _ => ⟨0, 0⟩) }

/-- `CCoinsViewDBCursor::GetKey`: the cached key, only when its tag is
`DB_COIN`. -/
def CCoinsViewDBCursor.GetKey (cur : CCoinsViewDBCursor) : Option COutPoint :=
  if cur.keyTmp.1 = 67 then some cur.keyTmp.2 else none

/-- `CCoinsViewDBCursor::GetValue`: parse the record under the iterator as
a `Coin`. Modelled from the spec: `CDBIterator::GetValue` (dbwrapper.h is
not under src/) deserializes the current record value, which in the typed
store model parses as a `Coin` exactly on a coin record. -/
def CCoinsViewDBCursor.GetValue (cur : CCoinsViewDBCursor) : Option Coin :=
  match cur.pcursor with
  | ChainstateRecord.coinRec _ c :: _ => some c
  | _ => none

/-- `CCoinsViewDBCursor::Valid`: the cached tag is `DB_COIN`. -/
def CCoinsViewDBCursor.Valid (cur : CCoinsViewDBCursor) : Bool :=
  cur.keyTmp.1 = 67

/-- The inner loop of `CCoinsViewDB::Upgrade` over one legacy record: for
every non-null, non-unspendable output at index `i` of the output array,
write the per-output coin record at `(txid, i)`. -/
def convertLegacyOutputs (txid : Nat) (nHeight : Nat) (fCoinBase fCoinStake : Bool) :
    Nat → List CTxOut → List DBOp
  | _, [] => []
  | i, t :: rest =>
    (if !t.IsNull && !scriptIsUnspendable t.scriptPubKey then
      [DBOp.writeCoin ⟨txid, i⟩ ⟨t, nHeight, fCoinBase, fCoinStake⟩]
    else []) ++ convertLegacyOutputs txid nHeight fCoinBase fCoinStake (i + 1) rest

/-- The batch operations of the `Upgrade` scan: per legacy record, the
converted per-output writes followed by the erase of the legacy record. -/
def upgradeOps : List (Nat × CCoins) → List DBOp
  | [] => []
  | (txid, cc) :: rest =>
    convertLegacyOutputs txid cc.nHeight cc.fCoinBase cc.fCoinStake 0 cc.vout
      ++ [DBOp.eraseLegacy txid] ++ upgradeOps rest

/-- `CCoinsViewDB::Upgrade`: seek to the first `DB_COINS` record; if none
exists return immediately without writing; otherwise convert every legacy
record to per-output records and erase it (chunked `WriteBatch` calls
apply the same operations sequentially). -/
def CCoinsViewDB.Upgrade (db : CCoinsViewDB) : CCoinsViewDB :=
  match db.legacy with
  | [] => db
  | _ :: _ => applyOps db (upgradeOps db.legacy)

/-- On-disk block-index record `CDiskBlockIndex` keyed by block hash
(`blockHash` models `GetBlockHash()`). -/
structure CDiskBlockIndex where
  blockHash : Nat
  hashPrev : Nat
  nHeight : Nat
  nFile : Nat
  nDataPos : Nat
  nUndoPos : Nat
  nVersion : Int
  hashMerkleRoot : Nat
  nTime : Nat
  nBits : Nat
  nNonce : Nat
  nStatus : Nat
  nTx : Nat
  nSaplingValue : Int
  hashFinalSaplingRoot : Nat
  nAccumulatorCheckpoint : Nat
  nFlags : Nat
  vStakeModifier : List Nat
  deriving DecidableEq, Repr

/-- In-memory `CBlockIndex` node as populated by `LoadBlockIndexGuts`;
`pprev` holds the predecessor hash resolved through `insertBlockIndex`. -/
structure CBlockIndex where
  blockHash : Nat
  pprev : Nat
  nHeight : Nat
  nFile : Nat
  nDataPos : Nat
  nUndoPos : Nat
  nVersion : Int
  hashMerkleRoot : Nat
  nTime : Nat
  nBits : Nat
  nNonce : Nat
  nStatus : Nat
  nTx : Nat
  nSaplingValue : Int
  hashFinalSaplingRoot : Nat
  nAccumulatorCheckpoint : Nat
  nFlags : Nat
  vStakeModifier : List Nat
  deriving DecidableEq, Repr

/-- The field-by-field copy from a disk record onto the in-memory node. -/
def mkBlockIndex (d : CDiskBlockIndex) : CBlockIndex :=
  { blockHash := d.blockHash
    pprev := d.hashPrev
    nHeight := d.nHeight
    nFile := d.nFile
    nDataPos := d.nDataPos
    nUndoPos := d.nUndoPos
    nVersion := d.nVersion
    hashMerkleRoot := d.hashMerkleRoot
    nTime := d.nTime
    nBits := d.nBits
    nNonce := d.nNonce
    nStatus := d.nStatus
    nTx := d.nTx
    nSaplingValue := d.nSaplingValue
    hashFinalSaplingRoot := d.hashFinalSaplingRoot
    nAccumulatorCheckpoint := d.nAccumulatorCheckpoint
    nFlags := d.nFlags
    vStakeModifier := d.vStakeModifier }

/-- Modelled from the spec: the compact-target decoding used by the
proof-of-work check (`arith_uint256::SetCompact`, not under src/): the high
byte is the size, the low 23 bits the mantissa. -/
def setCompact (nCompact : Nat) : Nat :=
  let size := nCompact >>> 24
  let word := nCompact &&& 0x007fffff
  if size ≤ 3 then word >>> (8 * (3 - size)) else word <<< (8 * (size - 3))

/-- Modelled from the spec: `CheckProofOfWork` (pow.cpp is not under src/)
re-verifies the recorded block hash against the target decoded from the
stored difficulty bits; a zero target never checks out. -/
def CheckProofOfWork (hash nBits : Nat) : Bool :=
  let target := setCompact nBits
  (target ≠ 0 : Bool) && (hash ≤ target : Bool)

/-- Modelled from the spec: `NetworkUpgradeActive(h, UPGRADE_POS)`
(consensus parameters are not under src/) holds once the height reaches
the proof-of-stake activation height. -/
def networkUpgradeActivePOS (posActivationHeight nHeight : Nat) : Bool :=
  posActivationHeight ≤ nHeight

/-- State of the block-tree database behind `CBlockTreeDB`, restricted to
the record families the claims touch: the `DB_BLOCK_INDEX` ('b') family in
key order and the `DB_REINDEX_FLAG` ('R') record (holding the byte '1'
when present). -/
structure CBlockTreeDB where
  blockIndex : List CDiskBlockIndex
  reindexRecord : Option Nat
  deriving DecidableEq, Repr

/-- `CBlockTreeDB::WriteReindexing`: write the record (byte '1' = 49) when
the flag is set, erase it otherwise; the second component is the C++
return value (the store write always succeeds in the model). -/
def CBlockTreeDB.WriteReindexing (db : CBlockTreeDB) (fReindexing : Bool) :
    CBlockTreeDB × Bool :=
  if fReindexing then ({ db with reindexRecord := some 49 }, true)
  else ({ db with reindexRecord := none }, true)

/-- `CBlockTreeDB::ReadReindexing`: the out-parameter is the existence of
the record; the return value is always true. -/
def CBlockTreeDB.ReadReindexing (db : CBlockTreeDB) : Bool × Bool :=
  (db.reindexRecord.isSome, true)

/-- The iteration of `CBlockTreeDB::LoadBlockIndexGuts` over the
`DB_BLOCK_INDEX` family: each record is copied onto an in-memory node; for
a record below the proof-of-stake activation height whose hash fails the
proof-of-work check against its stored bits, the load fails (the C++
`error(...)` return) and no index is produced. -/
def loadBlockIndexLoop (posActivationHeight : Nat) :
    List CDiskBlockIndex → Except Unit (List CBlockIndex)
  | [] => .ok []
  | d :: rest =>
    let pindexNew := mkBlockIndex d
    if !networkUpgradeActivePOS posActivationHeight pindexNew.nHeight
        && !CheckProofOfWork pindexNew.blockHash pindexNew.nBits then
      .error ()
    else
      match loadBlockIndexLoop posActivationHeight rest with
      | .ok l => .ok (pindexNew :: l)
      | .error e => .error e

/-- `CBlockTreeDB::LoadBlockIndexGuts`, as a function of the store. -/
def CBlockTreeDB.LoadBlockIndexGuts (db : CBlockTreeDB)
    (posActivationHeight : Nat) : Except Unit (List CBlockIndex) :=
  loadBlockIndexLoop posActivationHeight db.blockIndex

/-- State of the zerocoin database behind `CZerocoinDB`, restricted to the
accumulator-checksum family `LZC_ACCUMCS` ('A'), keyed by
(checksum, denomination). -/
structure CZerocoinDB where
  accChecksums : Nat × Nat → Option Int

/-- `CZerocoinDB::ReadAccChecksum`. -/
def CZerocoinDB.ReadAccChecksum (db : CZerocoinDB) (checksum denom : Nat) :
    Option Int :=
  db.accChecksums (checksum, denom)

/-- Point update of the in-memory checkpoint mapping. -/
def mapWrite (m : Nat × Nat → Option Int) (k : Nat × Nat) (v : Int) :
    Nat × Nat → Option Int :=
  fun p => if p = k then some v else m p

/-- `AccumulatorCache`: the in-memory checkpoint mapping over its backing
zerocoin database. -/
structure AccumulatorCache where
  db : CZerocoinDB
  mapCheckpoints : Nat × Nat → Option Int

/-- `AccumulatorCache::Set`: updates only the in-memory mapping. -/
def AccumulatorCache.Set (c : AccumulatorCache) (checksum denom : Nat)
    (height : Int) : AccumulatorCache :=
  { c with mapCheckpoints := mapWrite c.mapCheckpoints (checksum, denom) height }

/-- `AccumulatorCache::Get`: first the in-memory mapping; on miss the
backing store, populating the mapping when found there; otherwise absent.
Returns the result together with the (possibly updated) cache. -/
def AccumulatorCache.Get (c : AccumulatorCache) (checksum denom : Nat) :
    Option Int × AccumulatorCache :=
  match c.mapCheckpoints (checksum, denom) with
  | some h => (some h, c)
  | none =>
    match c.db.ReadAccChecksum checksum denom with
    | some h =>
      (some h, { c with mapCheckpoints := mapWrite c.mapCheckpoints (checksum, denom) h })
    | none => (none, c)

/-- A freshly created, empty chainstate database. -/
def emptyChainstateDB : CCoinsViewDB :=
  { coins := [], bestBlock := none, headBlocks := none, legacy := [], sapling := [] }

/-! ### Helper lemmas on the record store -/

theorem applyOps_append (db : CCoinsViewDB) (a b : List DBOp) :
    applyOps db (a ++ b) = applyOps (applyOps db a) b := by
  simp [applyOps, List.foldl_append]

theorem lookupCoin_filter_ne (l : List (COutPoint × Coin)) (o o' : COutPoint)
    (h : o' ≠ o) :
    lookupCoin (l.filter fun p => p.1 ≠ o) o' = lookupCoin l o' := by
  induction l with
  | nil => rfl
  | cons p rest ih =>
    by_cases hp : p.1 = o
    · have hne : ¬ o = o' := fun he => h he.symm
      simp only [ne_eq, decide_not] at ih ⊢
      simp [List.filter_cons, hp, lookupCoin, hne, ih]
    · simp only [ne_eq, decide_not] at ih ⊢
      simp [List.filter_cons, hp, lookupCoin, ih]

theorem lookupCoin_setCoin_self (l : List (COutPoint × Coin)) (o : COutPoint)
    (c : Coin) : lookupCoin (setCoin l o c) o = some c := by
  simp [setCoin, lookupCoin]

theorem lookupCoin_setCoin_ne (l : List (COutPoint × Coin)) (o o' : COutPoint)
    (c : Coin) (h : o' ≠ o) :
    lookupCoin (setCoin l o c) o' = lookupCoin l o' := by
  have hne : ¬ o = o' := fun he => h he.symm
  simp only [setCoin, lookupCoin, hne, if_false]
  exact lookupCoin_filter_ne l o o' h

theorem lookupCoin_eraseCoinRec_self (l : List (COutPoint × Coin))
    (o : COutPoint) : lookupCoin (eraseCoinRec l o) o = none := by
  induction l with
  | nil => rfl
  | cons p rest ih =>
    by_cases hp : p.1 = o
    · simpa [eraseCoinRec, List.filter_cons, hp] using ih
    · have hne : ¬ p.1 = o := hp
      simp only [eraseCoinRec, List.filter_cons, ne_eq, decide_not] at ih ⊢
      simp [hne, lookupCoin, ih]

theorem lookupCoin_eraseCoinRec_ne (l : List (COutPoint × Coin))
    (o o' : COutPoint) (h : o' ≠ o) :
    lookupCoin (eraseCoinRec l o) o' = lookupCoin l o' :=
  lookupCoin_filter_ne l o o' h

/-! ### Effect of the coin loop on the coin family -/

theorem coins_coinBatchOps_not_mem (o : COutPoint) :
    ∀ (m : CCoinsMap) (db : CCoinsViewDB),
    o ∉ List.map Prod.fst m →
    lookupCoin (applyOps db (coinBatchOps m)).coins o = lookupCoin db.coins o := by
  intro m
  induction m with
  | nil => intro db _; rfl
  | cons pe rest ih =>
    intro db h
    obtain ⟨o1, e1⟩ := pe
    have ho1 : o1 ≠ o := by
      intro he; exact h (by simp [he])
    have hrest : o ∉ List.map Prod.fst rest := by
      intro hr; exact h (by simp [hr])
    have hno : o ≠ o1 := fun he => ho1 he.symm
    simp only [coinBatchOps]
    rw [applyOps_append, ih _ hrest]
    by_cases hd : e1.flags &&& CCoinsCacheEntry.DIRTY ≠ 0
    · simp only [if_pos hd]
      by_cases hs : e1.coin.IsSpent
      · simp only [hs, if_pos]
        show lookupCoin (eraseCoinRec db.coins o1) o = lookupCoin db.coins o
        exact lookupCoin_eraseCoinRec_ne db.coins o1 o hno
      · simp only [hs, if_neg, Bool.not_eq_true]
        show lookupCoin (setCoin db.coins o1 e1.coin) o = lookupCoin db.coins o
        exact lookupCoin_setCoin_ne db.coins o1 o e1.coin hno
    · simp only [if_neg hd]
      rfl

theorem coins_coinBatchOps_mem (o : COutPoint) (e : CCoinsCacheEntry) :
    ∀ (m : CCoinsMap) (db : CCoinsViewDB),
    (o, e) ∈ m → (List.map Prod.fst m).Nodup →
    lookupCoin (applyOps db (coinBatchOps m)).coins o =
      if e.flags &&& CCoinsCacheEntry.DIRTY ≠ 0 then
        (if e.coin.IsSpent then none else some e.coin)
      else lookupCoin db.coins o := by
  intro m
  induction m with
  | nil => intro db hmem _; exact absurd hmem (List.not_mem_nil _)
  | cons pe rest ih =>
    intro db hmem hnodup
    obtain ⟨o1, e1⟩ := pe
    have hcons := List.nodup_cons.mp
      (show (o1 :: List.map Prod.fst rest).Nodup by simpa using hnodup)
    have hnodup1 : o1 ∉ List.map Prod.fst rest := hcons.1
    have hnodup2 : (List.map Prod.fst rest).Nodup := hcons.2
    rcases List.mem_cons.mp hmem with hhead | htail
    · have ho : o = o1 := congrArg Prod.fst hhead
      have he : e = e1 := congrArg Prod.snd hhead
      subst ho
      subst he
      have hnot : o ∉ List.map Prod.fst rest := hnodup1
      simp only [coinBatchOps]
      rw [applyOps_append, coins_coinBatchOps_not_mem o rest _ hnot]
      by_cases hd : e.flags &&& CCoinsCacheEntry.DIRTY ≠ 0
      · simp only [if_pos hd]
        by_cases hs : e.coin.IsSpent
        · simp only [hs, if_pos]
          show lookupCoin (eraseCoinRec db.coins o) o = none
          exact lookupCoin_eraseCoinRec_self db.coins o
        · simp only [hs, if_neg, Bool.not_eq_true]
          show lookupCoin (setCoin db.coins o e.coin) o = some e.coin
          exact lookupCoin_setCoin_self db.coins o e.coin
      · simp only [if_neg hd]
        rfl
    · have ho1 : o1 ≠ o := by
        intro he
        exact hnodup1 (he ▸ (List.mem_map.mpr ⟨(o, e), htail, rfl⟩))
      have hno : o ≠ o1 := fun he => ho1 he.symm
      simp only [coinBatchOps]
      rw [applyOps_append, ih _ htail hnodup2]
      by_cases hd1 : e1.flags &&& CCoinsCacheEntry.DIRTY ≠ 0
      · simp only [if_pos hd1]
        by_cases hs1 : e1.coin.IsSpent
        · simp only [hs1, if_pos]
          congr 1
          show lookupCoin (eraseCoinRec db.coins o1) o = lookupCoin db.coins o
          exact lookupCoin_eraseCoinRec_ne db.coins o1 o hno
        · simp only [hs1, if_neg, Bool.not_eq_true]
          congr 1
          show lookupCoin (setCoin db.coins o1 e1.coin) o = lookupCoin db.coins o
          exact lookupCoin_setCoin_ne db.coins o1 o e1.coin hno
      · simp only [if_neg hd1]
        rfl

/-- Successful `BatchWrite` decomposed: a tip was determined and the full
operation sequence was applied. -/
theorem batchWrite_some_eq (db db' : CCoinsViewDB) (mapCoins : CCoinsMap)
    (hashBlock hsa : Nat) (anch nlf : List (Nat × Nat))
    (hsucc : db.BatchWrite mapCoins hashBlock hsa anch nlf = some db') :
    ∃ tip, computeOldTip db hashBlock = some tip ∧
      db' = applyOps db (batchWriteOps mapCoins hashBlock hsa anch nlf tip) := by
  by_cases h0 : hashBlock = 0
  · simp [CCoinsViewDB.BatchWrite, h0] at hsucc
  · cases htip : computeOldTip db hashBlock with
    | none =>
      rw [CCoinsViewDB.BatchWrite, if_neg h0, htip] at hsucc
      exact absurd hsucc (by simp)
    | some tip =>
      rw [CCoinsViewDB.BatchWrite, if_neg h0, htip] at hsucc
      exact ⟨tip, rfl, (Option.some.injEq .. ▸ hsucc).symm⟩

/-- The batch sequence only touches the coin family through the coin loop;
the surrounding marker, sapling and pointer operations leave it alone. -/
theorem coins_applyOps_batchWriteOps (db : CCoinsViewDB) (mapCoins : CCoinsMap)
    (hashBlock hsa : Nat) (anch nlf : List (Nat × Nat)) (tip : Nat) :
    (applyOps db (batchWriteOps mapCoins hashBlock hsa anch nlf tip)).coins
      = (applyOps { db with bestBlock := none, headBlocks := some [hashBlock, tip] }
          (coinBatchOps mapCoins)).coins := by
  show (applyOps db ((([DBOp.eraseBestBlock, DBOp.writeHeadBlocks [hashBlock, tip]]
      ++ coinBatchOps mapCoins) ++ [DBOp.writeSapling ⟨hsa, anch, nlf⟩])
      ++ [DBOp.eraseHeadBlocks, DBOp.writeBestBlock hashBlock])).coins = _
  rw [applyOps_append, applyOps_append, applyOps_append]
  rfl

/-- C1: after a successful `BatchWrite` of a delta map (distinct keys, as
in `CCoinsMap`) under a non-null best-block hash, a dirty-and-spent
outpoint reads back absent (`GetCoin` none, `HaveCoin` false), a
dirty-and-unspent outpoint reads back exactly the coin written in the
delta, and an outpoint whose entry was not dirty keeps its stored record
unchanged. -/
theorem batchWrite_getCoin_roundtrip (db db' : CCoinsViewDB)
    (mapCoins : CCoinsMap) (hashBlock hsa : Nat) (anch nlf : List (Nat × Nat))
    (hnodup : (List.map Prod.fst mapCoins).Nodup)
    (hsucc : db.BatchWrite mapCoins hashBlock hsa anch nlf = some db') :
    (∀ o e, (o, e) ∈ mapCoins → e.flags &&& CCoinsCacheEntry.DIRTY ≠ 0 →
        e.coin.IsSpent = true → db'.GetCoin o = none ∧ db'.HaveCoin o = false)
    ∧ (∀ o e, (o, e) ∈ mapCoins → e.flags &&& CCoinsCacheEntry.DIRTY ≠ 0 →
        e.coin.IsSpent = false → db'.GetCoin o = some e.coin)
    ∧ (∀ o e, (o, e) ∈ mapCoins → e.flags &&& CCoinsCacheEntry.DIRTY = 0 →
        db'.GetCoin o = db.GetCoin o) := by
  obtain ⟨tip, htip, hdb'⟩ :=
    batchWrite_some_eq db db' mapCoins hashBlock hsa anch nlf hsucc
  have hc : db'.coins
      = (applyOps { db with bestBlock := none, headBlocks := some [hashBlock, tip] }
          (coinBatchOps mapCoins)).coins := by
    rw [hdb']
    exact coins_applyOps_batchWriteOps db mapCoins hashBlock hsa anch nlf tip
  refine ⟨?_, ?_, ?_⟩
  · intro o e hmem hd hs
    have h := coins_coinBatchOps_mem o e mapCoins
      { db with bestBlock := none, headBlocks := some [hashBlock, tip] } hmem hnodup
    rw [if_pos hd] at h
    simp only [hs, if_pos] at h
    refine ⟨?_, ?_⟩
    · show lookupCoin db'.coins o = none
      rw [hc]
      exact h
    · show (lookupCoin db'.coins o).isSome = false
      rw [hc, h]
      rfl
  · intro o e hmem hd hs
    have h := coins_coinBatchOps_mem o e mapCoins
      { db with bestBlock := none, headBlocks := some [hashBlock, tip] } hmem hnodup
    rw [if_pos hd] at h
    simp only [hs, Bool.false_eq_true, if_false] at h
    show lookupCoin db'.coins o = some e.coin
    rw [hc]
    exact h
  · intro o e hmem hd
    have hd' : ¬ e.flags &&& CCoinsCacheEntry.DIRTY ≠ 0 := by simp [hd]
    have h := coins_coinBatchOps_mem o e mapCoins
      { db with bestBlock := none, headBlocks := some [hashBlock, tip] } hmem hnodup
    rw [if_neg hd'] at h
    show lookupCoin db'.coins o = lookupCoin db.coins o
    rw [hc]
    exact h

/-- Concrete store for the round-trip witness: two stored coins, best
block 9. -/
def w1DB : CCoinsViewDB :=
  { coins := [(⟨1, 0⟩, ⟨⟨40, [2]⟩, 3, false, false⟩),
              (⟨3, 0⟩, ⟨⟨10, [4]⟩, 2, false, true⟩)]
    bestBlock := some 9
    headBlocks := none
    legacy := []
    sapling := [] }

/-- Concrete delta for the round-trip witness: a dirty-and-spent entry, a
dirty-and-unspent entry and a clean entry. -/
def w1Map : CCoinsMap :=
  [(⟨1, 0⟩, ⟨⟨⟨-1, []⟩, 0, false, false⟩, 1⟩),
   (⟨2, 0⟩, ⟨⟨⟨50, [5]⟩, 7, true, false⟩, 1⟩),
   (⟨3, 0⟩, ⟨⟨⟨99, []⟩, 1, false, false⟩, 0⟩)]

/-- The store after the witness commit. -/
def w1DBAfter : CCoinsViewDB :=
  match w1DB.BatchWrite w1Map 5 0 [] [] with
  | some d => d
  | none => ⟨[], none, none, [], []⟩

theorem batchWrite_getCoin_roundtrip_witness :
    w1DBAfter.GetCoin ⟨1, 0⟩ = none ∧ w1DBAfter.HaveCoin ⟨1, 0⟩ = false
    ∧ w1DBAfter.GetCoin ⟨2, 0⟩ = some ⟨⟨50, [5]⟩, 7, true, false⟩
    ∧ w1DBAfter.GetCoin ⟨3, 0⟩ = some ⟨⟨10, [4]⟩, 2, false, true⟩ := by
  have h := batchWrite_getCoin_roundtrip w1DB w1DBAfter w1Map 5 0 [] []
    (by decide) (by decide)
  exact ⟨(h.1 ⟨1, 0⟩ ⟨⟨⟨-1, []⟩, 0, false, false⟩, 1⟩ (by decide) (by decide)
      (by decide)).1,
    (h.1 ⟨1, 0⟩ ⟨⟨⟨-1, []⟩, 0, false, false⟩, 1⟩ (by decide) (by decide)
      (by decide)).2,
    h.2.1 ⟨2, 0⟩ ⟨⟨⟨50, [5]⟩, 7, true, false⟩, 1⟩ (by decide) (by decide)
      (by decide),
    (h.2.2 ⟨3, 0⟩ ⟨⟨⟨99, []⟩, 1, false, false⟩, 0⟩ (by decide) (by decide)).trans
      (by decide)⟩

/-- C2: every `BatchWrite` opens its first batch by erasing the best-block
record and writing the head-blocks marker `[hashBlock, old_tip]`, and
closes its final batch by erasing the marker and writing the best-block
record; after a successful commit the best-block record is set to the new
hash and the marker is absent, so exactly one of the two singleton records
holds — the best-block record. -/
theorem batchWrite_marker_exclusivity (db db' : CCoinsViewDB)
    (mapCoins : CCoinsMap) (hashBlock hsa : Nat) (anch nlf : List (Nat × Nat))
    (tip : Nat)
    (htip : computeOldTip db hashBlock = some tip)
    (hsucc : db.BatchWrite mapCoins hashBlock hsa anch nlf = some db') :
    (batchWriteOps mapCoins hashBlock hsa anch nlf tip).take 2
        = [DBOp.eraseBestBlock, DBOp.writeHeadBlocks [hashBlock, tip]]
    ∧ (∃ mid, batchWriteOps mapCoins hashBlock hsa anch nlf tip
        = [DBOp.eraseBestBlock, DBOp.writeHeadBlocks [hashBlock, tip]]
          ++ mid ++ [DBOp.eraseHeadBlocks, DBOp.writeBestBlock hashBlock])
    ∧ db'.bestBlock = some hashBlock ∧ db'.headBlocks = none := by
  obtain ⟨tip2, htip2, hdb'⟩ :=
    batchWrite_some_eq db db' mapCoins hashBlock hsa anch nlf hsucc
  have htips : tip = tip2 := Option.some.inj (htip.symm.trans htip2)
  subst htips
  refine ⟨rfl, ⟨coinBatchOps mapCoins ++ [DBOp.writeSapling ⟨hsa, anch, nlf⟩], ?_⟩, ?_, ?_⟩
  · simp [batchWriteOps]
  · rw [hdb']
    show (applyOps db ((([DBOp.eraseBestBlock, DBOp.writeHeadBlocks [hashBlock, tip]]
        ++ coinBatchOps mapCoins) ++ [DBOp.writeSapling ⟨hsa, anch, nlf⟩])
        ++ [DBOp.eraseHeadBlocks, DBOp.writeBestBlock hashBlock])).bestBlock
      = some hashBlock
    rw [applyOps_append]
    rfl
  · rw [hdb']
    show (applyOps db ((([DBOp.eraseBestBlock, DBOp.writeHeadBlocks [hashBlock, tip]]
        ++ coinBatchOps mapCoins) ++ [DBOp.writeSapling ⟨hsa, anch, nlf⟩])
        ++ [DBOp.eraseHeadBlocks, DBOp.writeBestBlock hashBlock])).headBlocks
      = none
    rw [applyOps_append]
    rfl

/-- Concrete store for the marker-exclusivity witness. -/
def w2DB : CCoinsViewDB :=
  { coins := [], bestBlock := some 3, headBlocks := none, legacy := [], sapling := [] }

/-- The store after the marker-exclusivity witness commit. -/
def w2DBAfter : CCoinsViewDB :=
  match w2DB.BatchWrite [] 7 0 [] [] with
  | some d => d
  | none => ⟨[], none, none, [], []⟩

theorem batchWrite_marker_exclusivity_witness :
    (batchWriteOps [] 7 0 [] [] 3).take 2
        = [DBOp.eraseBestBlock, DBOp.writeHeadBlocks [7, 3]]
    ∧ w2DBAfter.bestBlock = some 7 ∧ w2DBAfter.headBlocks = none := by
  have h := batchWrite_marker_exclusivity w2DB w2DBAfter [] 7 0 [] [] 3
    (by decide) (by decide)
  exact ⟨h.1, h.2.2.1, h.2.2.2⟩

/-- C3: when the best-block record is unset and the head-blocks marker
holds exactly `[hashBlock, prior]` with `hashBlock` the commit argument,
`BatchWrite` recovers `old_tip = prior` and writes the marker
`[hashBlock, prior]` at the head of its first batch; when the best-block
record is set (to a non-null hash), that value is the old tip and the
marker is not consulted — the result is the same for every marker
content. -/
theorem batchWrite_oldtip_recovery (db : CCoinsViewDB) (hashBlock prior : Nat) :
    (db.bestBlock = none → db.headBlocks = some [hashBlock, prior] →
      computeOldTip db hashBlock = some prior
      ∧ ∀ (mapCoins : CCoinsMap) (hsa : Nat) (anch nlf : List (Nat × Nat)),
          (batchWriteOps mapCoins hashBlock hsa anch nlf prior).take 2
            = [DBOp.eraseBestBlock, DBOp.writeHeadBlocks [hashBlock, prior]])
    ∧ (∀ t, db.bestBlock = some t → t ≠ 0 →
        ∀ marker : Option (List Nat),
          computeOldTip { db with headBlocks := marker } hashBlock = some t) := by
  constructor
  · intro h1 h2
    refine ⟨?_, fun _ _ _ _ => rfl⟩
    simp [computeOldTip, CCoinsViewDB.GetBestBlock, CCoinsViewDB.GetHeadBlocks,
      h1, h2]
  · intro t ht ht0 marker
    simp [computeOldTip, CCoinsViewDB.GetBestBlock, ht, ht0]

/-- Concrete mid-replay store for the old-tip recovery witness: best block
unset, marker `[7, 3]`. -/
def w3DB : CCoinsViewDB :=
  { coins := [], bestBlock := none, headBlocks := some [7, 3], legacy := [],
    sapling := [] }

/-- Concrete store with a set best block for the old-tip recovery
witness. -/
def w3DB2 : CCoinsViewDB :=
  { coins := [], bestBlock := some 4, headBlocks := some [9, 9], legacy := [],
    sapling := [] }

theorem batchWrite_oldtip_recovery_witness :
    computeOldTip w3DB 7 = some 3
    ∧ (batchWriteOps [] 7 0 [] [] 3).take 2
        = [DBOp.eraseBestBlock, DBOp.writeHeadBlocks [7, 3]]
    ∧ computeOldTip { w3DB2 with headBlocks := none } 7 = some 4
    ∧ computeOldTip { w3DB2 with headBlocks := some [1] } 7 = some 4 := by
  have h := (batchWrite_oldtip_recovery w3DB 7 3).1 rfl rfl
  have h2 := (batchWrite_oldtip_recovery w3DB2 7 3).2 4 rfl (by decide)
  exact ⟨h.1, h.2 [] 0 [] [], h2 none, h2 (some [1])⟩

/-- The coin-record key an operation writes or erases, if any. -/
def DBOp.coinKey : DBOp → Option COutPoint
  | .writeCoin o _ => some o
  | .eraseCoin o => some o
  | _ => none

theorem drainedCoins_nil (m : CCoinsMap) : drainedCoins m = [] := by
  induction m with
  | nil => rfl
  | cons _ rest ih => simpa [drainedCoins] using ih

theorem coinKey_coinBatchOps_not_mem (o : COutPoint) :
    ∀ (m : CCoinsMap), o ∉ List.map Prod.fst m →
    ∀ op ∈ coinBatchOps m, op.coinKey ≠ some o := by
  intro m
  induction m with
  | nil =>
    intro _ op hop
    exact absurd hop (List.not_mem_nil op)
  | cons pe rest ih =>
    intro h op hop
    obtain ⟨o1, e1⟩ := pe
    have ho1 : o1 ≠ o := fun he => h (by simp [he])
    have hrest : o ∉ List.map Prod.fst rest := fun hr => h (by simp [hr])
    simp only [coinBatchOps] at hop
    rcases List.mem_append.mp hop with hh | ht
    · by_cases hd : e1.flags &&& CCoinsCacheEntry.DIRTY ≠ 0
      · rw [if_pos hd] at hh
        have hop1 : op = (if e1.coin.IsSpent then DBOp.eraseCoin o1
            else DBOp.writeCoin o1 e1.coin) := by simpa using hh
        cases hs : e1.coin.IsSpent <;> simp [hop1, hs, DBOp.coinKey, ho1]
      · rw [if_neg hd] at hh
        exact absurd hh (List.not_mem_nil op)
    · exact ih hrest op ht

theorem coinKey_coinBatchOps_clean (o : COutPoint) (e : CCoinsCacheEntry) :
    ∀ (m : CCoinsMap), (o, e) ∈ m → (List.map Prod.fst m).Nodup →
    e.flags &&& CCoinsCacheEntry.DIRTY = 0 →
    ∀ op ∈ coinBatchOps m, op.coinKey ≠ some o := by
  intro m
  induction m with
  | nil =>
    intro hmem _ _ op hop
    exact absurd hmem (List.not_mem_nil _)
  | cons pe rest ih =>
    intro hmem hnodup hclean op hop
    obtain ⟨o1, e1⟩ := pe
    have hcons := List.nodup_cons.mp
      (show (o1 :: List.map Prod.fst rest).Nodup by simpa using hnodup)
    simp only [coinBatchOps] at hop
    rcases List.mem_cons.mp hmem with hhead | htail
    · have ho : o = o1 := congrArg Prod.fst hhead
      have he : e = e1 := congrArg Prod.snd hhead
      subst ho
      subst he
      rcases List.mem_append.mp hop with hh | ht
      · rw [if_neg (by simp [hclean])] at hh
        exact absurd hh (List.not_mem_nil op)
      · exact coinKey_coinBatchOps_not_mem o rest hcons.1 op ht
    · have ho1 : o1 ≠ o := by
        intro heq
        exact hcons.1 (heq ▸ (List.mem_map.mpr ⟨(o, e), htail, rfl⟩))
      rcases List.mem_append.mp hop with hh | ht
      · by_cases hd : e1.flags &&& CCoinsCacheEntry.DIRTY ≠ 0
        · rw [if_pos hd] at hh
          have hop1 : op = (if e1.coin.IsSpent then DBOp.eraseCoin o1
              else DBOp.writeCoin o1 e1.coin) := by simpa using hh
          cases hs : e1.coin.IsSpent <;> simp [hop1, hs, DBOp.coinKey, ho1]
        · rw [if_neg hd] at hh
          exact absurd hh (List.not_mem_nil op)
      · exact ih htail hcons.2 hclean op ht

/-- C4: a successful `BatchWrite` drains the caller's delta — the loop
erases every entry, dirty or clean, so the residual map is empty — and a
clean (non-dirty) entry contributes no coin write or erase: no operation
of the batch targets its outpoint, and its stored record is unchanged. -/
theorem batchWrite_drains_delta (db db' : CCoinsViewDB) (mapCoins : CCoinsMap)
    (hashBlock hsa : Nat) (anch nlf : List (Nat × Nat))
    (hnodup : (List.map Prod.fst mapCoins).Nodup)
    (hsucc : db.BatchWrite mapCoins hashBlock hsa anch nlf = some db') :
    drainedCoins mapCoins = []
    ∧ (∀ o e, (o, e) ∈ mapCoins → e.flags &&& CCoinsCacheEntry.DIRTY = 0 →
        (∀ op ∈ coinBatchOps mapCoins, op.coinKey ≠ some o)
        ∧ db'.GetCoin o = db.GetCoin o) := by
  obtain ⟨tip, htip, hdb'⟩ :=
    batchWrite_some_eq db db' mapCoins hashBlock hsa anch nlf hsucc
  refine ⟨drainedCoins_nil mapCoins, fun o e hmem hclean => ⟨?_, ?_⟩⟩
  · exact coinKey_coinBatchOps_clean o e mapCoins hmem hnodup hclean
  · have hc : db'.coins
        = (applyOps { db with bestBlock := none, headBlocks := some [hashBlock, tip] }
            (coinBatchOps mapCoins)).coins := by
      rw [hdb']
      exact coins_applyOps_batchWriteOps db mapCoins hashBlock hsa anch nlf tip
    have h := coins_coinBatchOps_mem o e mapCoins
      { db with bestBlock := none, headBlocks := some [hashBlock, tip] } hmem hnodup
    rw [if_neg (by simp [hclean])] at h
    show lookupCoin db'.coins o = lookupCoin db.coins o
    rw [hc]
    exact h

/-- The store after the drain witness commit. -/
def w4DBAfter : CCoinsViewDB :=
  match w1DB.BatchWrite [(⟨3, 0⟩, ⟨⟨⟨99, []⟩, 1, false, false⟩, 0⟩)] 7 0 [] [] with
  | some d => d
  | none => ⟨[], none, none, [], []⟩

theorem batchWrite_drains_delta_witness :
    drainedCoins [(⟨3, 0⟩, ⟨⟨⟨99, []⟩, 1, false, false⟩, 0⟩)] = []
    ∧ w4DBAfter.GetCoin ⟨3, 0⟩ = w1DB.GetCoin ⟨3, 0⟩ := by
  have h := batchWrite_drains_delta w1DB w4DBAfter
    [(⟨3, 0⟩, ⟨⟨⟨99, []⟩, 1, false, false⟩, 0⟩)] 7 0 [] [] (by decide) (by decide)
  exact ⟨h.1, (h.2 ⟨3, 0⟩ ⟨⟨⟨99, []⟩, 1, false, false⟩, 0⟩ (by decide) (by decide)).2⟩

/-- C5: `GetBestBlock` on a freshly created, empty store (no best-block
record) returns the all-zero hash, and returns the stored hash whenever
the record is present. -/
theorem getBestBlock_fresh_zero :
    emptyChainstateDB.GetBestBlock = 0
    ∧ ∀ (db : CCoinsViewDB) (h : Nat), db.bestBlock = some h →
        db.GetBestBlock = h := by
  refine ⟨rfl, fun db h hset => ?_⟩
  simp [CCoinsViewDB.GetBestBlock, hset]

theorem getBestBlock_fresh_zero_witness :
    emptyChainstateDB.GetBestBlock = 0
    ∧ CCoinsViewDB.GetBestBlock ⟨[], some 11, none, [], []⟩ = 11 :=
  ⟨getBestBlock_fresh_zero.1,
    getBestBlock_fresh_zero.2 ⟨[], some 11, none, [], []⟩ 11 rfl⟩

theorem legacy_applyOps_convert :
    ∀ (vs : List CTxOut) (i : Nat) (db : CCoinsViewDB) (t h : Nat) (cb cs : Bool),
    (applyOps db (convertLegacyOutputs t h cb cs i vs)).legacy = db.legacy := by
  intro vs
  induction vs with
  | nil => intro i db t h cb cs; rfl
  | cons x rest ih =>
    intro i db t h cb cs
    simp only [convertLegacyOutputs]
    rw [applyOps_append]
    rw [ih]
    by_cases hx : (!x.IsNull && !scriptIsUnspendable x.scriptPubKey) = true
    · rw [if_pos hx]
      rfl
    · rw [if_neg hx]
      rfl

theorem legacy_applyOps_upgradeOps :
    ∀ (l : List (Nat × CCoins)) (db : CCoinsViewDB),
    (∀ k ∈ List.map Prod.fst db.legacy, k ∈ List.map Prod.fst l) →
    (applyOps db (upgradeOps l)).legacy = [] := by
  intro l
  induction l with
  | nil =>
    intro db hcond
    cases hl : db.legacy with
    | nil => simpa [applyOps, upgradeOps] using hl
    | cons p rest =>
      exact absurd (hcond p.1 (by simp [hl])) (by simp)
  | cons tc rest ih =>
    intro db hcond
    obtain ⟨t, cc⟩ := tc
    show (applyOps db ((convertLegacyOutputs t cc.nHeight cc.fCoinBase cc.fCoinStake 0 cc.vout
        ++ [DBOp.eraseLegacy t]) ++ upgradeOps rest)).legacy = []
    rw [applyOps_append]
    apply ih
    intro k hk
    have h1 : (applyOps db (convertLegacyOutputs t cc.nHeight cc.fCoinBase cc.fCoinStake 0
        cc.vout ++ [DBOp.eraseLegacy t])).legacy
        = db.legacy.filter fun p => p.1 ≠ t := by
      rw [applyOps_append]
      show (applyOp _ (DBOp.eraseLegacy t)).legacy = _
      simp only [applyOp]
      rw [legacy_applyOps_convert]
    rw [h1] at hk
    obtain ⟨p, hp, hpk⟩ := List.mem_map.mp hk
    have hpf := List.mem_filter.mp hp
    have hpt : p.1 ≠ t := by simpa using hpf.2
    have := hcond p.1 (List.mem_map.mpr ⟨p, hpf.1, rfl⟩)
    simp only [List.map_cons, List.mem_cons] at this
    rcases this with heq | hmem
    · exact absurd heq hpt
    · exact hpk ▸ hmem

theorem upgrade_of_legacy_nil (db : CCoinsViewDB) (h : db.legacy = []) :
    db.Upgrade = db := by
  simp [CCoinsViewDB.Upgrade, h]

theorem upgrade_legacy_nil (db : CCoinsViewDB) : db.Upgrade.legacy = [] := by
  cases hl : db.legacy with
  | nil => rw [upgrade_of_legacy_nil db hl, hl]
  | cons p rest =>
    have hu : db.Upgrade = applyOps db (upgradeOps (p :: rest)) := by
      simp [CCoinsViewDB.Upgrade, hl]
    rw [hu]
    apply legacy_applyOps_upgradeOps
    intro k hk
    exact hl ▸ hk

/-- C6: `Upgrade` on a store containing no legacy record returns
immediately leaving the store unchanged; consequently a second run after
any first run is a no-op and the store after two runs equals the store
after one. -/
theorem upgrade_idempotent (db : CCoinsViewDB) :
    (db.legacy = [] → db.Upgrade = db) ∧ db.Upgrade.Upgrade = db.Upgrade :=
  ⟨fun h => upgrade_of_legacy_nil db h,
    upgrade_of_legacy_nil db.Upgrade (upgrade_legacy_nil db)⟩

/-- Concrete store for the upgrade witness: one legacy record with a
spent output, an unspent output and an unspendable output. -/
def w6DB : CCoinsViewDB :=
  { coins := [], bestBlock := none, headBlocks := none,
    legacy := [(5, ⟨false, true, [⟨-1, []⟩, ⟨20, [7]⟩, ⟨30, [106]⟩], 12⟩)],
    sapling := [] }

theorem upgrade_idempotent_witness :
    emptyChainstateDB.Upgrade = emptyChainstateDB
    ∧ w6DB.Upgrade.Upgrade = w6DB.Upgrade
    ∧ w6DB.Upgrade.GetCoin ⟨5, 1⟩ = some ⟨⟨20, [7]⟩, 12, false, true⟩
    ∧ w6DB.Upgrade.GetCoin ⟨5, 0⟩ = none
    ∧ w6DB.Upgrade.GetCoin ⟨5, 2⟩ = none := by
  refine ⟨(upgrade_idempotent emptyChainstateDB).1 rfl,
    (upgrade_idempotent w6DB).2, by decide, by decide, by decide⟩

/-- C7: a cursor created on a store whose coin-record keyspace is empty is
immediately exhausted — `Valid` is false and `GetKey`/`GetValue` return
absent — both when the iterator lands on a record of a different tag
(head-blocks or legacy) and when it lands on no record at all. -/
theorem cursor_empty_exhausted (db : CCoinsViewDB) (h : db.coins = []) :
    db.Cursor.Valid = false ∧ db.Cursor.GetKey = none
    ∧ db.Cursor.GetValue = none := by
  have hseek : seekDBCoin db
      = (match db.headBlocks with
          | some hs => [ChainstateRecord.headBlocksRec hs]
          | none => [])
        ++ db.legacy.map fun p => ChainstateRecord.legacyRec p.1 p.2 := by
    simp [seekDBCoin, h]
  cases hh : db.headBlocks with
  | some hs =>
    have hs2 : seekDBCoin db = ChainstateRecord.headBlocksRec hs
        :: db.legacy.map fun p => ChainstateRecord.legacyRec p.1 p.2 := by
      rw [hseek, hh]
      rfl
    simp [CCoinsViewDB.Cursor, hs2, CCoinsViewDBCursor.Valid,
      CCoinsViewDBCursor.GetKey, CCoinsViewDBCursor.GetValue, ChainstateRecord.tag]
  | none =>
    cases hl : db.legacy with
    | nil =>
      have hs2 : seekDBCoin db = [] := by rw [hseek, hh, hl]; rfl
      simp [CCoinsViewDB.Cursor, hs2, CCoinsViewDBCursor.Valid,
        CCoinsViewDBCursor.GetKey, CCoinsViewDBCursor.GetValue]
    | cons p rest =>
      have hs2 : seekDBCoin db = ChainstateRecord.legacyRec p.1 p.2
          :: rest.map fun q => ChainstateRecord.legacyRec q.1 q.2 := by
        rw [hseek, hh, hl]
        rfl
      simp [CCoinsViewDB.Cursor, hs2, CCoinsViewDBCursor.Valid,
        CCoinsViewDBCursor.GetKey, CCoinsViewDBCursor.GetValue, ChainstateRecord.tag]

theorem cursor_empty_exhausted_witness :
    ((CCoinsViewDB.Cursor ⟨[], some 9, none,
        [(4, ⟨false, false, [⟨1, [2]⟩], 3⟩)], []⟩).Valid = false
      ∧ (CCoinsViewDB.Cursor ⟨[], some 9, none,
        [(4, ⟨false, false, [⟨1, [2]⟩], 3⟩)], []⟩).GetKey = none
      ∧ (CCoinsViewDB.Cursor ⟨[], some 9, none,
        [(4, ⟨false, false, [⟨1, [2]⟩], 3⟩)], []⟩).GetValue = none)
    ∧ (emptyChainstateDB.Cursor.Valid = false
      ∧ emptyChainstateDB.Cursor.GetKey = none
      ∧ emptyChainstateDB.Cursor.GetValue = none) :=
  ⟨cursor_empty_exhausted ⟨[], some 9, none,
      [(4, ⟨false, false, [⟨1, [2]⟩], 3⟩)], []⟩ rfl,
    cursor_empty_exhausted emptyChainstateDB rfl⟩

theorem loadBlockIndexLoop_pow_error (posH : Nat) :
    ∀ (l : List CDiskBlockIndex) (d : CDiskBlockIndex), d ∈ l →
    d.nHeight < posH → CheckProofOfWork d.blockHash d.nBits = false →
    loadBlockIndexLoop posH l = .error () := by
  intro l
  induction l with
  | nil =>
    intro d hmem _ _
    exact absurd hmem (List.not_mem_nil d)
  | cons d1 rest ih =>
    intro d hmem hh hpow
    rcases List.mem_cons.mp hmem with hhead | htail
    · subst hhead
      have hcond : (!networkUpgradeActivePOS posH (mkBlockIndex d).nHeight
          && !CheckProofOfWork (mkBlockIndex d).blockHash (mkBlockIndex d).nBits)
          = true := by
        show (!networkUpgradeActivePOS posH d.nHeight
            && !CheckProofOfWork d.blockHash d.nBits) = true
        rw [hpow]
        simp [networkUpgradeActivePOS, Nat.not_le.mpr hh]
      simp [loadBlockIndexLoop, hcond]
    · by_cases hc : (!networkUpgradeActivePOS posH (mkBlockIndex d1).nHeight
          && !CheckProofOfWork (mkBlockIndex d1).blockHash (mkBlockIndex d1).nBits)
          = true
      · simp [loadBlockIndexLoop, hc]
      · rw [loadBlockIndexLoop, if_neg hc, ih d htail hh hpow]

/-- C8: `LoadBlockIndexGuts` on a store containing a block-index record
whose height is below the proof-of-stake activation height and whose
recorded hash fails the proof-of-work check against its stored bits fails
(the `CorruptIndex` error) instead of succeeding, and returns no
(partially populated) index. -/
theorem loadBlockIndex_pow_corrupt (posH : Nat) (db : CBlockTreeDB)
    (d : CDiskBlockIndex) (hmem : d ∈ db.blockIndex) (hh : d.nHeight < posH)
    (hpow : CheckProofOfWork d.blockHash d.nBits = false) :
    db.LoadBlockIndexGuts posH = .error () :=
  loadBlockIndexLoop_pow_error posH db.blockIndex d hmem hh hpow

/-- Concrete corrupt record for the load witness: height 1 (below the
activation height 10), difficulty bits decoding to a zero target. -/
def w8Disk : CDiskBlockIndex :=
  ⟨100, 0, 1, 0, 0, 0, 1, 0, 0, 0, 0, 0, 0, 0, 0, 0, 0, []⟩

theorem loadBlockIndex_pow_corrupt_witness :
    CBlockTreeDB.LoadBlockIndexGuts ⟨[w8Disk], none⟩ 10 = .error () :=
  loadBlockIndex_pow_corrupt 10 ⟨[w8Disk], none⟩ w8Disk (by decide) (by decide)
    (by decide)

/-- C9: `AccumulatorCache::Set` is write-back — it changes only the
in-memory mapping and leaves the backing store untouched — and a `Get` of
the same key immediately after returns the set height from memory (for
any backing-store content, since the cache is arbitrary); on a key absent
from memory but present in the backing store, `Get` returns the stored
height and populates the in-memory mapping. -/
theorem accumulatorCache_writeback (c : AccumulatorCache)
    (checksum denom : Nat) (height : Int) :
    ((c.Set checksum denom height).db = c.db)
    ∧ ((c.Set checksum denom height).Get checksum denom
        = (some height, c.Set checksum denom height))
    ∧ (∀ c' : AccumulatorCache, c'.mapCheckpoints (checksum, denom) = none →
        c'.db.accChecksums (checksum, denom) = some height →
        c'.Get checksum denom
          = (some height,
              { c' with mapCheckpoints :=
                  mapWrite c'.mapCheckpoints (checksum, denom) height })) := by
  refine ⟨rfl, ?_, ?_⟩
  · simp [AccumulatorCache.Get, AccumulatorCache.Set, mapWrite]
  · intro c' h1 h2
    simp [AccumulatorCache.Get, h1, CZerocoinDB.ReadAccChecksum, h2]

/-- Concrete cache for the write-back witness: empty memory over a store
holding height 7 at key (3, 5). -/
def w9Cache : AccumulatorCache :=
  ⟨⟨fun p => if p = (3, 5) then some 7 else none⟩, fun _ => none⟩

theorem accumulatorCache_writeback_witness :
    ((w9Cache.Set 1 2 9).Get 1 2).1 = some 9
    ∧ (w9Cache.Set 1 2 9).db = w9Cache.db
    ∧ (w9Cache.Get 3 5).1 = some 7 := by
  refine ⟨?_, (accumulatorCache_writeback w9Cache 1 2 9).1, ?_⟩
  · exact congrArg Prod.fst (accumulatorCache_writeback w9Cache 1 2 9).2.1
  · exact congrArg Prod.fst
      ((accumulatorCache_writeback w9Cache 3 5 7).2.2 w9Cache rfl rfl)

/-- C10: `ReadReindexing` always succeeds and reports the flag as the
existence of the reindex record; `WriteReindexing true` writes the record
and `WriteReindexing false` erases it, so a read after a write of either
boolean yields that boolean. -/
theorem reindexing_roundtrip (db : CBlockTreeDB) (b : Bool) :
    (db.ReadReindexing.2 = true
      ∧ db.ReadReindexing.1 = db.reindexRecord.isSome)
    ∧ (db.WriteReindexing b).2 = true
    ∧ ((db.WriteReindexing b).1.ReadReindexing).1 = b
    ∧ ((db.WriteReindexing true).1.reindexRecord = some 49
        ∧ (db.WriteReindexing false).1.reindexRecord = none) := by
  cases b <;>
    simp [CBlockTreeDB.ReadReindexing, CBlockTreeDB.WriteReindexing]
